import Mathlib

set_option linter.unusedVariables false

namespace PaginationSpec

/-! Shallow embedding of the pagination system of this repository
    (`src/app/hooks/usePagination.ts`: the `computePageBreaks` engine, the
    debounced recomputation scheduler, and the ProseMirror pagination plugin).

    Pixel Y coordinates are modelled as `Int` (root-local pixels, the values
    produced by `getRootLocalY`).  The DOM measurement provider is modelled as
    a capability carried by each block, following spec section 2
    ("Measurement Provider ... a capability interface, not an implementation"):
    `Block.measure ti off` is the value `measureBlockToTextOffsetBottomY`
    returns for the block's `ti`-th text node at character offset `off`, and
    `Block.probe` is the combined result of `caretPositionFromPoint` followed
    by `normalizeCaretToTextPosition` at a given boundary Y. -/

/-- A text node of a block, as yielded by `walkTextNodes` (which filters out
    empty and whitespace-only nodes). -/
structure TextRun where
  data : List Char

/-- A pagination-unit block element together with its measured geometry. -/
structure Block where
  /-- rendered width from `getBoundingClientRect` (used by `isVisibleElement`) -/
  width : Int
  /-- root-local top Y, as computed by `getElementTopBottomY` -/
  top : Int
  /-- root-local bottom Y, as computed by `getElementTopBottomY` -/
  bottom : Int
  /-- the text nodes of the block in document order (`walkTextNodes`) -/
  texts : List TextRun
  /-- measurement capability: `measureBlockToTextOffsetBottomY` for a text
      node index and a character offset (already clamped into range) -/
  measure : Nat → Nat → Int
  /-- caret capability: `caretPositionFromPoint` at the probe point for a
      boundary Y, normalized by `normalizeCaretToTextPosition` to an optional
      (text node index, offset) inside this block -/
  probe : Int → Option (Nat × Nat)

/-- The content root: its `scrollHeight` and the elements matched by the
    block selector, in document order. -/
structure Root where
  scrollHeight : Int
  blocks : List Block

/-- `PaginateOptions` of `computePageBreaks` (defaults already applied). -/
structure PaginateOptions where
  pageHeightPx : Int
  topMarginPx : Int
  bottomMarginPx : Int
  pageGapPx : Int
  maxBinarySearchSteps : Nat

/-- `PageBreakAnchor`: element references are block indices into the filtered
    block list, text references are (block index, text node index). -/
inductive PageBreakAnchor where
  | beforeElement (blockIdx : Nat) (pageStartY : Int)
  | textOffset (blockIdx : Nat) (textIdx : Nat) (offset : Nat) (pageStartY : Int)
deriving DecidableEq

/-- the `pageStartY` field of a break anchor -/
def pageStartYOf : PageBreakAnchor → Int
  | .beforeElement _ y => y
  | .textOffset _ _ _ y => y

/-- the document position (block index) a break anchor is attached to -/
def blockIdxOf : PageBreakAnchor → Nat
  | .beforeElement i _ => i
  | .textOffset i _ _ _ => i

/-- the location a break references: a whole element, or a text node plus
    character offset (used to state deduplication-by-location) -/
def anchorLoc : PageBreakAnchor → Nat ⊕ (Nat × Nat × Nat)
  | .beforeElement i _ => Sum.inl i
  | .textOffset i t o _ => Sum.inr (i, t, o)

/-- `PaginationResult` as returned by `computePageBreaks`. -/
structure PaginationResult where
  pageHeightPx : Int
  topMarginPx : Int
  bottomMarginPx : Int
  pageGapPx : Int
  pageStridePx : Int
  breaks : List PageBreakAnchor
  contentHeightPx : Int

/-- `isVisibleElement`: skip blocks with zero rendered area
    (`rect.width > 0 && rect.height > 0`; the rect height equals
    `bottom - top`). -/
def isVisibleElement (b : Block) : Bool :=
  0 < b.width && 0 < b.bottom - b.top

/-- the character class matched by the JavaScript regular expression `\s`
    (ECMAScript WhiteSpace and LineTerminator code points) -/
def isJsWhitespace (c : Char) : Bool :=
  c = ' ' || c = '\t' || c = '\n' || c = '\u000B' || c = '\u000C' || c = '\r' ||
  c = '\u00A0' || c = '\u1680' || c = '\u2000' || c = '\u2001' || c = '\u2002' ||
  c = '\u2003' || c = '\u2004' || c = '\u2005' || c = '\u2006' || c = '\u2007' ||
  c = '\u2008' || c = '\u2009' || c = '\u200A' || c = '\u2028' || c = '\u2029' ||
  c = '\u202F' || c = '\u205F' || c = '\u3000' || c = '\uFEFF'

/-- length of the block's `ti`-th text node (`textNode.data.length`), 0 when
    the index is out of range -/
def textLen (b : Block) (ti : Nat) : Nat :=
  ((b.texts.get? ti).map (fun t => t.data.length)).getD 0

/-- `measureBlockToTextOffsetBottomY root block textNode offset`: measured
    rendered bottom Y of the block content from the start of the block up to
    (textNode, offset); the source clamps the offset into
    `[0, textNode.data.length]` before measuring. -/
def measureBlockToTextOffsetBottomY (b : Block) (ti : Nat) (offset : Nat) : Int :=
  b.measure ti (min offset (textLen b ti))

/-- the `while (lo <= hi && steps < maxSteps)` binary-search loop of
    `binarySearchSplitOffset`; the first argument of the recursion is the
    number of remaining steps (`maxSteps - steps`).  `(lo + hi) >> 1` is floor
    division by two (both bounds are non-negative whenever `lo <= hi`). -/
def bsearchLoop (measure : Nat → Int) (boundaryY : Int) : Nat → Int → Int → Nat → Nat
  | 0, _, _, best => best
  | fuel + 1, lo, hi, best =>
    if lo ≤ hi then
      let mid := (lo + hi) / 2
      if measure mid.toNat ≤ boundaryY then
        bsearchLoop measure boundaryY fuel (mid + 1) hi mid.toNat
      else
        bsearchLoop measure boundaryY fuel lo (mid - 1) best
    else best

/-- the `while (refined > 0 && back < maxBacktrack)` whitespace-backtrack loop
    of `binarySearchSplitOffset`; the first recursion argument is the number
    of remaining backtrack steps (`maxBacktrack - back`).  `data.charAt(i)`
    out of range yields the empty string, which `\s` does not match. -/
def backtrackLoop (data : List Char) : Nat → Nat → Nat
  | 0, refined => refined
  | _ + 1, 0 => 0
  | fuel + 1, refined + 1 =>
    if (data.get? refined).any isJsWhitespace then refined + 1
    else backtrackLoop data fuel refined

/-- `binarySearchSplitOffset`: binary-search the largest offset in the text
    node whose measured bottom still fits above `boundaryY`, then backtrack
    (at most `maxBacktrack = 40` characters) to a whitespace boundary; the
    raw offset is restored only when the backtrack reached offset 0. -/
def binarySearchSplitOffset (measure : Nat → Int) (data : List Char)
    (boundaryY : Int) (maxSteps : Nat) : Nat :=
  if boundaryY < measure 1 then 0
  else
    let best := bsearchLoop measure boundaryY maxSteps 0 (data.length : Int) 0
    let refined := backtrackLoop data 40 best
    if refined = 0 then best else refined

/-- the fallback `for (const textNode of walkTextNodes(block))` loop of
    `findSplitPointWithinBlock`; `i` is the absolute index of the first
    element of the remaining list and `prevo` models `previousTextNode` as
    (its index, its data length). -/
def fallbackScan (b : Block) (boundaryY : Int) (maxSteps : Nat) :
    Nat → Option (Nat × Nat) → List TextRun → Option (Nat × Nat)
  | _, _, [] => none
  | i, prevo, t :: rest =>
    let endBottom := measureBlockToTextOffsetBottomY b i t.data.length
    if endBottom ≤ boundaryY then
      fallbackScan b boundaryY maxSteps (i + 1) (some (i, t.data.length)) rest
    else
      let offset := binarySearchSplitOffset
        (measureBlockToTextOffsetBottomY b i) t.data boundaryY maxSteps
      if offset = 0 then prevo
      else some (i, offset)

/-- `findSplitPointWithinBlock`: fast caret-probe path (accepted only when
    the probed position resolves to a text node of this block, measures at or
    above the boundary and has positive offset), otherwise the fallback text
    node scan.  The `ti < b.texts.length` guard models the
    `block.contains(caret.node)` containment check of
    `normalizeCaretToTextPosition`, and `min off (textLen b ti)` its offset
    clamp. -/
def findSplitPointWithinBlock (b : Block) (boundaryY : Int) (maxSteps : Nat) :
    Option (Nat × Nat) :=
  let fast : Option (Nat × Nat) :=
    match b.probe boundaryY with
    | none => none
    | some (ti, off) =>
      if ti < b.texts.length then
        let off := min off (textLen b ti)
        if measureBlockToTextOffsetBottomY b ti off ≤ boundaryY ∧ 0 < off then
          some (ti, off)
        else none
      else none
  match fast with
  | some r => some r
  | none => fallbackScan b boundaryY maxSteps 0 none b.texts

/-- the `while (top >= currentPageBottom)` loop of `computePageBreaks`, which
    emits a before-element break and advances `currentPageBottom` by one
    stride per iteration.  The first recursion argument is an upper bound on
    the number of iterations; `skipFuel` below is sufficient whenever the
    stride is positive (`skipGo_exits`), so with a positive stride the loop
    always stops because its condition fails, exactly as in the source. -/
def skipGo (top stride : Int) (blockIdx : Nat) : Nat → Int → List PageBreakAnchor × Int
  | 0, cpb => ([], cpb)
  | fuel + 1, cpb =>
    if cpb ≤ top then
      let r := skipGo top stride blockIdx fuel (cpb + stride)
      (.beforeElement blockIdx cpb :: r.1, r.2)
    else ([], cpb)

/-- iteration bound for the skip loop: with `0 < stride` the loop exits after
    at most `(top + stride - cpb).toNat` iterations -/
def skipFuel (top stride cpb : Int) : Nat := (top + stride - cpb).toNat

/-- the skip loop at its sufficient iteration bound -/
def skipPastBoundary (top stride : Int) (blockIdx : Nat) (cpb : Int) :
    List PageBreakAnchor × Int :=
  skipGo top stride blockIdx (skipFuel top stride cpb) cpb

/-- the main `for (let i = 0; i < blocks.length; i++)` loop of
    `computePageBreaks`: skip fully fitting blocks, emit before-element
    breaks while a block starts at or past the boundary, then try the
    intra-block splitter and fall back to a whole-block before-element
    break when it fails. -/
def paginateAux (stride : Int) (maxSteps : Nat) :
    List Block → Nat → Int → List PageBreakAnchor
  | [], _, _ => []
  | b :: rest, i, cpb =>
    if b.bottom ≤ cpb then paginateAux stride maxSteps rest (i + 1) cpb
    else
      let skip := skipPastBoundary b.top stride i cpb
      match findSplitPointWithinBlock b skip.2 maxSteps with
      | some (ti, off) =>
        skip.1 ++ .textOffset i ti off skip.2 ::
          paginateAux stride maxSteps rest (i + 1) (skip.2 + stride)
      | none =>
        skip.1 ++ .beforeElement i skip.2 ::
          paginateAux stride maxSteps rest (i + 1) (skip.2 + stride)

/-- `computePageBreaks root options`: the pagination engine. -/
def computePageBreaks (root : Root) (options : PaginateOptions) : PaginationResult :=
  let pageStridePx := options.pageHeightPx + options.topMarginPx +
    options.bottomMarginPx + options.pageGapPx
  let blocks := root.blocks.filter isVisibleElement
  let breaks := paginateAux pageStridePx options.maxBinarySearchSteps blocks 0
    (options.topMarginPx + options.pageHeightPx)
  { pageHeightPx := options.pageHeightPx
    topMarginPx := options.topMarginPx
    bottomMarginPx := options.bottomMarginPx
    pageGapPx := options.pageGapPx
    pageStridePx := pageStridePx
    breaks := breaks
    contentHeightPx := root.scrollHeight }

/-! The break projection layer: the ProseMirror `Pagination` plugin
    (`state.apply` of the plugin, and the `setPaginationBreaks` /
    `clearPaginationBreaks` commands). -/

/-- `PaginationMeta` carried on a transaction by the commands. -/
structure PaginationMeta where
  breakPositions : List Int
  topSpacerPx : Int
  betweenSpacerPx : Int
  bottomSpacerPx : Int
deriving DecidableEq

/-- a widget decoration: document position, side bias, spacer height and the
    CSS class of the created element -/
structure Decoration where
  pos : Int
  side : Int
  heightPx : Int
  cssClass : String
deriving DecidableEq

/-- a document transaction as seen by the plugin: its position mapping
    (`none` when the position is deleted), its pagination meta if any, and
    the resulting document's `doc.content.size` -/
structure Transaction where
  mapping : Int → Option Int
  meta : Option PaginationMeta
  docSize : Nat

/-- the clamp `Math.max(0, Math.min(p, newState.doc.content.size))` applied
    to every supplied break position -/
def clampPositions (ps : List Int) (size : Nat) : List Int :=
  ps.map fun p => max 0 (min p (size : Int))

/-- helper of `dedupAdjacent`: keep an element iff it differs from its
    immediate predecessor in the input list -/
def dedupAdjacentAux (prev : Int) : List Int → List Int
  | [] => []
  | x :: t => if x = prev then dedupAdjacentAux x t else x :: dedupAdjacentAux x t

/-- the `.filter((p, i, arr) => i === 0 || p !== arr[i - 1])` adjacent
    deduplication (each element is compared against the previous element of
    the input array) -/
def dedupAdjacent : List Int → List Int
  | [] => []
  | x :: t => x :: dedupAdjacentAux x t

/-- rebuilding the decoration list from a `PaginationMeta`: optional top
    spacer at 0, optional bottom spacer at the document end, and one
    inter-page spacer per clamped deduplicated break position when the
    between height is positive -/
def buildDecorations (meta : PaginationMeta) (size : Nat) : List Decoration :=
  let clamped := dedupAdjacent (clampPositions meta.breakPositions size)
  (if 0 < meta.topSpacerPx then
      [⟨0, -1, meta.topSpacerPx, "pm-page-top-spacer"⟩] else []) ++
    (if 0 < meta.bottomSpacerPx then
      [⟨(size : Int), 1, meta.bottomSpacerPx, "pm-page-bottom-spacer"⟩] else []) ++
    clamped.filterMap fun pos =>
      if meta.betweenSpacerPx ≤ 0 then none
      else some ⟨pos, -1, meta.betweenSpacerPx, "pm-page-break"⟩

/-- Modelled from the spec: `DecorationSet.map` of prosemirror-view (an
    external collaborator, spec section 4.3 / 6): remap each decoration's
    position through the transaction's position-mapping function, preserving
    heights and relative order and dropping any decoration whose position the
    mapping deletes. -/
def mapDecorationSet (m : Int → Option Int) (ds : List Decoration) : List Decoration :=
  ds.filterMap fun d => (m d.pos).map fun p => { d with pos := p }

/-- `state.apply` of the pagination plugin: map the previous decorations
    through the transaction; without a meta keep the mapped set, with a meta
    discard it and rebuild from the supplied break positions. -/
def paginationApply (tr : Transaction) (prev : List Decoration) : List Decoration :=
  let mapped := mapDecorationSet tr.mapping prev
  match tr.meta with
  | none => mapped
  | some meta => buildDecorations meta tr.docSize

/-- the meta dispatched by the `setPaginationBreaks` command -/
def setPaginationBreaksMeta (breakPositions : List Int)
    (topSpacerPx betweenSpacerPx bottomSpacerPx : Int) : PaginationMeta :=
  { breakPositions := breakPositions
    topSpacerPx := topSpacerPx
    betweenSpacerPx := betweenSpacerPx
    bottomSpacerPx := bottomSpacerPx }

/-- the meta dispatched by the `clearPaginationBreaks` command -/
def clearPaginationBreaksMeta : PaginationMeta :=
  { breakPositions := []
    topSpacerPx := 0
    betweenSpacerPx := 0
    bottomSpacerPx := 0 }

/-! The reactive scheduler (`scheduleRecompute` / `recomputeNow`), modelled
    with a virtual-time semantics of the single-threaded browser event loop:
    `window.setTimeout` schedules a firing at the current time plus the
    debounce delay, and `window.clearTimeout` on re-entry cancels the pending
    firing, so a pending timer fires iff no further change event arrives
    before its firing time.  Each firing runs `recomputeNow`, which cancels
    any pending animation frame and requests a single new one that calls
    `computePageBreaks` once, so executions of `computePageBreaks` correspond
    one-to-one to timer firings. -/

/-- processing the remaining change events while a timer set by the change at
    time `pending` is outstanding -/
def debounceGo (d : Int) : Int → List Int → List Int
  | pending, [] => [pending + d]
  | pending, t :: rest =>
    if t < pending + d then debounceGo d t rest
    else (pending + d) :: debounceGo d t rest

/-- the times at which the debounce timer of `scheduleRecompute` fires, given
    the (time-ordered) change event times and the debounce delay `d` -/
def debounceFires (d : Int) : List Int → List Int
  | [] => []
  | t :: rest => debounceGo d t rest

/-! Concrete instances used by the closed theorems and witnesses. -/

/-- measurement capability of a block with no measurable text -/
def junkMeasure : Nat → Nat → Int := fun _ _ => 0

/-- caret capability of a block for which the probe never resolves -/
def noProbe : Int → Option (Nat × Nat) := fun _ => none

/-- a visible paragraph with the given geometry and no measurable text -/
def para (top bottom : Int) : Block :=
  { width := 1, top := top, bottom := bottom, texts := [],
    measure := junkMeasure, probe := noProbe }

/-- Scenario A of the spec: three stacked 300px paragraphs -/
def scenarioARoot : Root :=
  { scrollHeight := 900, blocks := [para 0 300, para 300 600, para 600 900] }

/-- the reference configuration: 864px content height, no margins, no gap -/
def scenarioACfg : PaginateOptions :=
  { pageHeightPx := 864, topMarginPx := 0, bottomMarginPx := 0, pageGapPx := 0,
    maxBinarySearchSteps := 18 }

/-- a root whose single block starts more than two page strides down -/
def c2Root : Root := { scrollHeight := 2100, blocks := [para 2000 2100] }

/-- a 50-character text run with no whitespace at all -/
def c1Data : List Char := List.replicate 50 'a'

/-- a measurement in which the rendered bottom of the first `o` characters is
    `o` pixels -/
def c1Measure : Nat → Int := fun o => (o : Int)

/-- first text run of the two-run block below -/
def c5Run0 : TextRun := { data := ['a', 'b'] }

/-- second text run of the two-run block below -/
def c5Run1 : TextRun := { data := ['c', 'd'] }

/-- measurement for the two-run block: content through run 0 ends at 5px,
    content reaching into run 1 ends at 20px -/
def c5Measure : Nat → Nat → Int := fun ti _ => if ti = 0 then 5 else 20

/-- a block whose first run fits above a 10px boundary and whose second run
    overflows it from its first character on -/
def c5Block : Block :=
  { width := 1, top := 0, bottom := 30, texts := [c5Run0, c5Run1],
    measure := c5Measure, probe := noProbe }

/-! Helper development: arithmetic progressions of page boundaries. -/

/-- the arithmetic progression `c, c + s, c + 2s, ...` of length `n` -/
def prog (c s : Int) : Nat → List Int
  | 0 => []
  | n + 1 => c :: prog (c + s) s n

lemma prog_length (c s : Int) (n : Nat) : (prog c s n).length = n := by
  induction n generalizing c with
  | zero => rfl
  | succ n ih => simp [prog, ih]

lemma prog_get? (c s : Int) (n j : Nat) :
    (prog c s n).get? j = if j < n then some (c + (j : Int) * s) else none := by
  induction n generalizing c j with
  | zero => simp [prog]
  | succ n ih =>
    cases j with
    | zero => simp [prog]
    | succ j =>
      simp only [prog, List.get?_cons_succ, ih]
      by_cases hj : j < n
      · rw [if_pos hj, if_pos (by omega)]
        congr 1
        push_cast
        ring
      · rw [if_neg hj, if_neg (by omega)]

lemma prog_le_of_mem (c s : Int) (hs : 0 ≤ s) (n : Nat) :
    ∀ y ∈ prog c s n, c ≤ y := by
  induction n generalizing c with
  | zero => simp [prog]
  | succ n ih =>
    intro y hy
    rcases List.mem_cons.mp hy with h | h
    · omega
    · have := ih (c + s) y h
      omega

lemma prog_pairwise_lt (c s : Int) (hs : 0 < s) (n : Nat) :
    (prog c s n).Pairwise (· < ·) := by
  induction n generalizing c with
  | zero => simp [prog]
  | succ n ih =>
    rw [prog, List.pairwise_cons]
    refine ⟨fun y hy => ?_, ih (c + s)⟩
    have := prog_le_of_mem (c + s) s (le_of_lt hs) n y hy
    omega

lemma prog_append (c s : Int) (m n : Nat) :
    prog c s (m + n) = prog c s m ++ prog (c + (m : Int) * s) s n := by
  induction m generalizing c with
  | zero => simp [prog]
  | succ m ih =>
    have h1 : m + 1 + n = (m + n) + 1 := by omega
    rw [h1, prog, prog, ih (c + s), List.cons_append]
    congr 3
    push_cast
    ring

/-! Specifications of the skip loop. -/

lemma skipGo_of_not_le (top s : Int) (i : Nat) (fuel : Nat) (cpb : Int)
    (h : ¬ cpb ≤ top) : skipGo top s i fuel cpb = ([], cpb) := by
  cases fuel with
  | zero => rfl
  | succ fuel => simp [skipGo, h]

lemma skipGo_map_pageStartY (top s : Int) (i : Nat) :
    ∀ (fuel : Nat) (cpb : Int),
      (skipGo top s i fuel cpb).1.map pageStartYOf =
        prog cpb s (skipGo top s i fuel cpb).1.length := by
  intro fuel
  induction fuel with
  | zero => intro cpb; simp [skipGo, prog]
  | succ fuel ih =>
    intro cpb
    by_cases h : cpb ≤ top
    · simp only [skipGo, if_pos h, List.map_cons, List.length_cons, prog,
        pageStartYOf]
      rw [ih (cpb + s)]
    · simp [skipGo, h, prog]

lemma skipGo_snd (top s : Int) (i : Nat) :
    ∀ (fuel : Nat) (cpb : Int),
      (skipGo top s i fuel cpb).2 =
        cpb + ((skipGo top s i fuel cpb).1.length : Int) * s := by
  intro fuel
  induction fuel with
  | zero => intro cpb; simp [skipGo]
  | succ fuel ih =>
    intro cpb
    by_cases h : cpb ≤ top
    · simp only [skipGo, if_pos h, List.length_cons]
      rw [ih (cpb + s)]
      push_cast
      ring
    · simp [skipGo, h]

lemma skipGo_blockIdx (top s : Int) (i : Nat) :
    ∀ (fuel : Nat) (cpb : Int), ∀ a ∈ (skipGo top s i fuel cpb).1,
      blockIdxOf a = i := by
  intro fuel
  induction fuel with
  | zero => intro cpb a ha; simp [skipGo] at ha
  | succ fuel ih =>
    intro cpb a ha
    by_cases h : cpb ≤ top
    · simp only [skipGo, if_pos h, List.mem_cons] at ha
      rcases ha with rfl | ha
      · rfl
      · exact ih (cpb + s) a ha
    · simp [skipGo, h] at ha

/-- With a positive stride the skip loop's fuel bound is sufficient: the loop
    stops because its condition `top >= currentPageBottom` fails, never by
    running out of fuel, so the model agrees with the source's unbounded
    while loop. -/
lemma skipGo_exits (top s : Int) (i : Nat) (hs : 0 < s) :
    ∀ (fuel : Nat) (cpb : Int), skipFuel top s cpb ≤ fuel →
      top < (skipGo top s i fuel cpb).2 := by
  intro fuel
  induction fuel with
  | zero =>
    intro cpb hf
    simp only [skipGo]
    unfold skipFuel at hf
    omega
  | succ fuel ih =>
    intro cpb hf
    by_cases h : cpb ≤ top
    · simp only [skipGo, if_pos h]
      refine ih (cpb + s) ?_
      unfold skipFuel at hf ⊢
      omega
    · simp only [skipGo, if_neg h]
      omega

lemma skipPastBoundary_of_not_le (top s : Int) (i : Nat) (cpb : Int)
    (h : ¬ cpb ≤ top) : skipPastBoundary top s i cpb = ([], cpb) :=
  skipGo_of_not_le top s i _ cpb h

/-! Unfolding lemmas for the main pagination loop. -/

lemma paginateAux_cons_fit (s : Int) (ms : Nat) (b : Block) (rest : List Block)
    (i : Nat) (cpb : Int) (h : b.bottom ≤ cpb) :
    paginateAux s ms (b :: rest) i cpb = paginateAux s ms rest (i + 1) cpb := by
  simp [paginateAux, h]

lemma paginateAux_cons_split (s : Int) (ms : Nat) (b : Block) (rest : List Block)
    (i : Nat) (cpb : Int) (ti off : Nat) (h : ¬ b.bottom ≤ cpb)
    (hsp : findSplitPointWithinBlock b (skipPastBoundary b.top s i cpb).2 ms =
      some (ti, off)) :
    paginateAux s ms (b :: rest) i cpb =
      (skipPastBoundary b.top s i cpb).1 ++
        .textOffset i ti off (skipPastBoundary b.top s i cpb).2 ::
          paginateAux s ms rest (i + 1) ((skipPastBoundary b.top s i cpb).2 + s) := by
  simp [paginateAux, h, hsp]

lemma paginateAux_cons_noSplit (s : Int) (ms : Nat) (b : Block) (rest : List Block)
    (i : Nat) (cpb : Int) (h : ¬ b.bottom ≤ cpb)
    (hsp : findSplitPointWithinBlock b (skipPastBoundary b.top s i cpb).2 ms = none) :
    paginateAux s ms (b :: rest) i cpb =
      (skipPastBoundary b.top s i cpb).1 ++
        .beforeElement i (skipPastBoundary b.top s i cpb).2 ::
          paginateAux s ms rest (i + 1) ((skipPastBoundary b.top s i cpb).2 + s) := by
  simp [paginateAux, h, hsp]

/-! Assembly helpers for one else-branch iteration of the pagination loop. -/

lemma assembled_map (skips : List PageBreakAnchor) (A : PageBreakAnchor)
    (rec : List PageBreakAnchor) (cpb s : Int)
    (h1 : skips.map pageStartYOf = prog cpb s skips.length)
    (h2 : pageStartYOf A = cpb + (skips.length : Int) * s)
    (h3 : rec.map pageStartYOf = prog (pageStartYOf A + s) s rec.length) :
    (skips ++ A :: rec).map pageStartYOf =
      prog cpb s (skips ++ A :: rec).length := by
  have hlen : (skips ++ A :: rec).length = skips.length + (1 + rec.length) := by
    simp [List.length_append]
    omega
  rw [hlen, List.map_append, List.map_cons, h1, h3,
    prog_append cpb s skips.length (1 + rec.length)]
  congr 1
  rw [show 1 + rec.length = rec.length + 1 from by omega, prog, ← h2]

lemma assembled_blockIdx (skips : List PageBreakAnchor) (A : PageBreakAnchor)
    (rec : List PageBreakAnchor) (i : Nat)
    (hskips : ∀ a ∈ skips, blockIdxOf a = i) (hA : blockIdxOf A = i)
    (hrec : ∀ a ∈ rec, i + 1 ≤ blockIdxOf a)
    (hrecp : rec.Pairwise (fun a b => blockIdxOf a ≤ blockIdxOf b)) :
    (∀ a ∈ skips ++ A :: rec, i ≤ blockIdxOf a) ∧
      (skips ++ A :: rec).Pairwise (fun a b => blockIdxOf a ≤ blockIdxOf b) := by
  constructor
  · intro a ha
    rcases List.mem_append.mp ha with h | h
    · rw [hskips a h]
    · rcases List.mem_cons.mp h with rfl | h
      · rw [hA]
      · exact le_trans (by omega) (hrec a h)
  · rw [List.pairwise_append]
    refine ⟨?_, ?_, ?_⟩
    · exact List.pairwise_of_forall_mem_list fun a ha b hb => by
        rw [hskips a ha, hskips b hb]
    · rw [List.pairwise_cons]
      exact ⟨fun b hb => by rw [hA]; exact le_trans (by omega) (hrec b hb), hrecp⟩
    · intro a ha b hb
      rw [hskips a ha]
      rcases List.mem_cons.mp hb with rfl | h
      · rw [hA]
      · exact le_trans (by omega) (hrec b h)

/-! Master invariants of the pagination loop: the emitted page boundaries
    form an exact arithmetic progression starting at `currentPageBottom` with
    the stride as common difference, and block indices are non-decreasing. -/

lemma paginateAux_map_pageStartY (s : Int) (ms : Nat) :
    ∀ (blocks : List Block) (i : Nat) (cpb : Int),
      (paginateAux s ms blocks i cpb).map pageStartYOf =
        prog cpb s (paginateAux s ms blocks i cpb).length := by
  intro blocks
  induction blocks with
  | nil => intro i cpb; simp [paginateAux, prog]
  | cons b rest ih =>
    intro i cpb
    by_cases hfit : b.bottom ≤ cpb
    · rw [paginateAux_cons_fit s ms b rest i cpb hfit]
      exact ih (i + 1) cpb
    · have hmap := skipGo_map_pageStartY b.top s i (skipFuel b.top s cpb) cpb
      have hsnd := skipGo_snd b.top s i (skipFuel b.top s cpb) cpb
      cases hsp : findSplitPointWithinBlock b (skipPastBoundary b.top s i cpb).2 ms with
      | none =>
        rw [paginateAux_cons_noSplit s ms b rest i cpb hfit hsp]
        exact assembled_map _ _ _ _ _ hmap hsnd (ih (i + 1) _)
      | some r =>
        obtain ⟨ti, off⟩ := r
        rw [paginateAux_cons_split s ms b rest i cpb ti off hfit hsp]
        exact assembled_map _ _ _ _ _ hmap hsnd (ih (i + 1) _)

lemma paginateAux_blockIdx (s : Int) (ms : Nat) :
    ∀ (blocks : List Block) (i : Nat) (cpb : Int),
      (∀ a ∈ paginateAux s ms blocks i cpb, i ≤ blockIdxOf a) ∧
        (paginateAux s ms blocks i cpb).Pairwise
          (fun a b => blockIdxOf a ≤ blockIdxOf b) := by
  intro blocks
  induction blocks with
  | nil => intro i cpb; simp [paginateAux]
  | cons b rest ih =>
    intro i cpb
    by_cases hfit : b.bottom ≤ cpb
    · rw [paginateAux_cons_fit s ms b rest i cpb hfit]
      exact ⟨fun a ha => le_trans (by omega) ((ih (i + 1) cpb).1 a ha),
        (ih (i + 1) cpb).2⟩
    · have hskips := skipGo_blockIdx b.top s i (skipFuel b.top s cpb) cpb
      cases hsp : findSplitPointWithinBlock b (skipPastBoundary b.top s i cpb).2 ms with
      | none =>
        rw [paginateAux_cons_noSplit s ms b rest i cpb hfit hsp]
        exact assembled_blockIdx _ _ _ i hskips rfl
          (ih (i + 1) _).1 (ih (i + 1) _).2
      | some r =>
        obtain ⟨ti, off⟩ := r
        rw [paginateAux_cons_split s ms b rest i cpb ti off hfit hsp]
        exact assembled_blockIdx _ _ _ i hskips rfl
          (ih (i + 1) _).1 (ih (i + 1) _).2

/-! Lemmas about the intra-block splitter. -/

lemma findSplit_probe_none (b : Block) (boundaryY : Int) (ms : Nat)
    (h : b.probe boundaryY = none) :
    findSplitPointWithinBlock b boundaryY ms =
      fallbackScan b boundaryY ms 0 none b.texts := by
  unfold findSplitPointWithinBlock
  rw [h]

lemma findSplit_of_no_texts (b : Block) (boundaryY : Int) (ms : Nat)
    (h : b.texts = []) : findSplitPointWithinBlock b boundaryY ms = none := by
  unfold findSplitPointWithinBlock
  cases hp : b.probe boundaryY with
  | none => simp [h, fallbackScan]
  | some r =>
    obtain ⟨ti, off⟩ := r
    simp [h, fallbackScan]

/-- Generic behaviour of the fallback scan when the first overflowing run
    yields binary-search offset 0: the scan returns `previousTextNode` as it
    stood when that run was reached (the last element of the fitting
    leading runs, or the incoming `prevo` when none fit). -/
lemma fallbackScan_stops (b : Block) (boundaryY : Int) (ms : Nat) :
    ∀ (l : List TextRun) (i : Nat) (prevo : Option (Nat × Nat)) (t : TextRun)
      (rest : List TextRun),
      (∀ j (h : j < l.length),
        measureBlockToTextOffsetBottomY b (i + j) (l.get ⟨j, h⟩).data.length ≤
          boundaryY) →
      boundaryY <
        measureBlockToTextOffsetBottomY b (i + l.length) t.data.length →
      binarySearchSplitOffset (measureBlockToTextOffsetBottomY b (i + l.length))
        t.data boundaryY ms = 0 →
      fallbackScan b boundaryY ms i prevo (l ++ t :: rest) =
        (match l.getLast? with
         | none => prevo
         | some last => some (i + l.length - 1, last.data.length)) := by
  intro l
  induction l with
  | nil =>
    intro i prevo t rest hfits hover hzero
    simp only [List.length_nil, Nat.add_zero] at hover hzero
    simp only [List.nil_append, List.getLast?_nil]
    rw [fallbackScan, if_neg (by omega), if_pos hzero]
  | cons p l ih =>
    intro i prevo t rest hfits hover hzero
    have hp : measureBlockToTextOffsetBottomY b i p.data.length ≤ boundaryY := by
      have := hfits 0 (by simp)
      simpa using this
    rw [List.cons_append, fallbackScan, if_pos hp]
    have hfits1 : ∀ j (h : j < l.length),
        measureBlockToTextOffsetBottomY b (i + 1 + j) (l.get ⟨j, h⟩).data.length ≤
          boundaryY := by
      intro j hj
      have := hfits (j + 1) (by simpa using Nat.succ_lt_succ hj)
      simpa [Nat.add_assoc, Nat.add_comm 1 j] using this
    have hover1 : boundaryY <
        measureBlockToTextOffsetBottomY b (i + 1 + l.length) t.data.length := by
      have h1 : i + 1 + l.length = i + (p :: l).length := by simp; omega
      rw [h1]
      exact hover
    have hzero1 : binarySearchSplitOffset
        (measureBlockToTextOffsetBottomY b (i + 1 + l.length)) t.data boundaryY
          ms = 0 := by
      have h1 : i + 1 + l.length = i + (p :: l).length := by simp; omega
      rw [h1]
      exact hzero
    rw [ih (i + 1) (some (i, p.data.length)) t rest hfits1 hover1 hzero1]
    cases l with
    | nil => simp
    | cons q l =>
      rw [List.getLast?_cons_cons]
      cases hlast : (q :: l).getLast? with
      | none =>
        have h2 : (q :: l).getLast?.isSome := List.getLast?_isSome.mpr (by simp)
        rw [hlast] at h2
        simp at h2
      | some last =>
        have hidx : i + 1 + (q :: l).length - 1 = i + (p :: q :: l).length - 1 := by
          simp
          omega
        rw [hidx]

/-! Lemmas about the break projection layer. -/

lemma dedupAdjacentAux_subset : ∀ (l : List Int) (prev x : Int),
    x ∈ dedupAdjacentAux prev l → x ∈ l := by
  intro l
  induction l with
  | nil => intro prev x hx; simp [dedupAdjacentAux] at hx
  | cons y t ih =>
    intro prev x hx
    by_cases hy : y = prev
    · rw [dedupAdjacentAux, if_pos hy] at hx
      exact List.mem_cons_of_mem y (ih y x hx)
    · rw [dedupAdjacentAux, if_neg hy] at hx
      rcases List.mem_cons.mp hx with rfl | hx
      · exact List.mem_cons_self x t
      · exact List.mem_cons_of_mem y (ih y x hx)

lemma dedupAdjacent_subset (l : List Int) (x : Int)
    (hx : x ∈ dedupAdjacent l) : x ∈ l := by
  cases l with
  | nil => simp [dedupAdjacent] at hx
  | cons y t =>
    rw [dedupAdjacent] at hx
    rcases List.mem_cons.mp hx with rfl | hx
    · exact List.mem_cons_self x t
    · exact List.mem_cons_of_mem y (dedupAdjacentAux_subset t y x hx)

lemma dedupAdjacentAux_chain : ∀ (l : List Int) (prev : Int),
    (dedupAdjacentAux prev l).Chain' (fun a b => a ≠ b) ∧
      (∀ x, (dedupAdjacentAux prev l).head? = some x → x ≠ prev) := by
  intro l
  induction l with
  | nil => intro prev; simp [dedupAdjacentAux]
  | cons y t ih =>
    intro prev
    by_cases hy : y = prev
    · rw [dedupAdjacentAux, if_pos hy]
      refine ⟨(ih y).1, fun x hx => ?_⟩
      rw [← hy]
      exact (ih y).2 x hx
    · rw [dedupAdjacentAux, if_neg hy]
      constructor
      · rw [List.chain'_cons']
        refine ⟨fun z hz => ?_, (ih y).1⟩
        have := (ih y).2 z (by simpa using hz)
        omega
      · intro x hx
        simp only [List.head?_cons, Option.some.injEq] at hx
        omega

/-- The clamped deduplicated position list contains no two adjacent equal
    positions. -/
lemma dedupAdjacent_chain (l : List Int) :
    (dedupAdjacent l).Chain' (fun a b => a ≠ b) := by
  cases l with
  | nil => simp [dedupAdjacent]
  | cons y t =>
    rw [dedupAdjacent, List.chain'_cons']
    refine ⟨fun z hz => ?_, (dedupAdjacentAux_chain t y).1⟩
    have := (dedupAdjacentAux_chain t y).2 z (by simpa using hz)
    omega

lemma mapDecorationSet_attrs (m : Int → Option Int) (l : List Decoration) :
    (mapDecorationSet m l).map (fun d => (d.heightPx, d.cssClass, d.side)) =
      (l.filter fun d => (m d.pos).isSome).map
        (fun d => (d.heightPx, d.cssClass, d.side)) := by
  induction l with
  | nil => rfl
  | cons d t ih =>
    cases hm : m d.pos with
    | none => simp [mapDecorationSet, List.filterMap_cons, hm, List.filter_cons] at ih ⊢; exact ih
    | some p => simp [mapDecorationSet, List.filterMap_cons, hm, List.filter_cons] at ih ⊢; exact ih

lemma mapDecorationSet_pos (m : Int → Option Int) (l : List Decoration) :
    (mapDecorationSet m l).map (fun d => d.pos) =
      l.filterMap (fun d => m d.pos) := by
  induction l with
  | nil => rfl
  | cons d t ih =>
    cases hm : m d.pos with
    | none => simp [mapDecorationSet, List.filterMap_cons, hm] at ih ⊢; exact ih
    | some p => simp [mapDecorationSet, List.filterMap_cons, hm] at ih ⊢; exact ih

lemma mapDecorationSet_id (l : List Decoration) :
    mapDecorationSet (fun p => some p) l = l := by
  induction l with
  | nil => rfl
  | cons d t ih =>
    obtain ⟨dpos, dside, dh, dc⟩ := d
    simp only [mapDecorationSet, List.filterMap_cons, Option.map_some'] at ih ⊢
    rw [ih]

/-! Lemma about the debounced scheduler. -/

/-- When every change event of a burst arrives before the debounce timer set
    by its predecessor would fire, only the last timer survives: exactly one
    firing, one debounce window after the final event of the burst. -/
lemma debounceGo_burst (d : Int) :
    ∀ (ts : List Int) (t : Int),
      List.Chain (fun a b => a ≤ b ∧ b < a + d) t ts →
      debounceGo d t ts = [(t :: ts).getLastD 0 + d] := by
  intro ts
  induction ts with
  | nil => intro t _; simp [debounceGo, List.getLastD_cons]
  | cons u ts ih =>
    intro t hchain
    rw [List.chain_cons] at hchain
    rw [debounceGo, if_pos hchain.1.2, ih u hchain.2]
    simp [List.getLastD_cons]

lemma computePageBreaks_breaks (root : Root) (cfg : PaginateOptions) :
    (computePageBreaks root cfg).breaks =
      paginateAux
        (cfg.pageHeightPx + cfg.topMarginPx + cfg.bottomMarginPx + cfg.pageGapPx)
        cfg.maxBinarySearchSteps (root.blocks.filter isVisibleElement) 0
        (cfg.topMarginPx + cfg.pageHeightPx) := rfl

lemma computePageBreaks_stride (root : Root) (cfg : PaginateOptions) :
    (computePageBreaks root cfg).pageStridePx =
      cfg.pageHeightPx + cfg.topMarginPx + cfg.bottomMarginPx + cfg.pageGapPx := rfl

/-! Claim theorems. -/

/-- C1 (code bug): at a 50-character run with no whitespace at all, measured
    bottom `o` pixels at offset `o`, boundary 45 and the default 18 binary
    search steps, the binary search finds raw offset 45, no whitespace exists
    anywhere (in particular not in the 40-character backtrack window), yet
    `binarySearchSplitOffset` returns 5 = 45 - 40 instead of keeping the raw
    offset 45 as the spec requires: the restore guard `if (refined <= 0)`
    only fires when the backtrack walked all the way to offset 0. -/
theorem binarySearch_backtrack_failing_input :
    binarySearchSplitOffset c1Measure c1Data 45 18 = 5 ∧
      bsearchLoop c1Measure 45 18 0 (c1Data.length : Int) 0 = 45 ∧
      (∀ c ∈ c1Data, isJsWhitespace c = false) :=
  ⟨by decide, by decide, by decide⟩

/-- C2 (counterexample): for a single block starting more than two strides
    past the first page boundary, `computePageBreaks` emits three breaks that
    all reference the same element (two from the skip loop and a third from
    the unsplittable-block fallback), so the break list is not deduplicated
    by referenced location as the claim states. -/
theorem computePageBreaks_dedup_counterexample :
    (computePageBreaks c2Root scenarioACfg).breaks =
        [.beforeElement 0 864, .beforeElement 0 1728, .beforeElement 0 2592] ∧
      ¬ ((computePageBreaks c2Root scenarioACfg).breaks.map anchorLoc).Nodup :=
  ⟨by decide, by decide⟩

/-- C2 (amended): for every content root and every config with positive page
    height and non-negative margins and gap, the breaks returned by
    `computePageBreaks` are strictly increasing in `pageStartY` and
    non-decreasing in document order (block index); they are however not
    deduplicated by referenced location (see the counterexample). -/
theorem computePageBreaks_sorted (root : Root) (cfg : PaginateOptions)
    (h1 : 0 < cfg.pageHeightPx) (h2 : 0 ≤ cfg.topMarginPx)
    (h3 : 0 ≤ cfg.bottomMarginPx) (h4 : 0 ≤ cfg.pageGapPx) :
    ((computePageBreaks root cfg).breaks.map pageStartYOf).Pairwise (· < ·) ∧
      ((computePageBreaks root cfg).breaks.map blockIdxOf).Pairwise (· ≤ ·) := by
  constructor
  · rw [computePageBreaks_breaks, paginateAux_map_pageStartY]
    exact prog_pairwise_lt _ _ (by omega) _
  · rw [computePageBreaks_breaks, List.pairwise_map]
    exact (paginateAux_blockIdx _ _ (root.blocks.filter isVisibleElement) 0 _).2

/-- witness for C2's amended theorem at the counterexample root -/
theorem computePageBreaks_sorted_witness :
    ((0:Int) < 864 ∧ (0:Int) ≤ 0) ∧
      ((computePageBreaks c2Root scenarioACfg).breaks.map pageStartYOf).Pairwise
        (· < ·) ∧
      ((computePageBreaks c2Root scenarioACfg).breaks.map blockIdxOf).Pairwise
        (· ≤ ·) := by
  have h := computePageBreaks_sorted c2Root scenarioACfg (by decide) (by decide)
    (by decide) (by decide)
  exact ⟨⟨by norm_num, le_refl 0⟩, h.1, h.2⟩

/-- C3: with page content height 864, zero margins and gap, and three stacked
    300px paragraphs (no measurable text inside), `computePageBreaks` returns
    exactly one break: a before-element break before the third paragraph at
    `pageStartY = 864`. -/
theorem scenarioA_single_break :
    (computePageBreaks scenarioARoot scenarioACfg).breaks =
      [.beforeElement 2 864] := by decide

/-- C4: a single pagination unit with no measurable text that starts on the
    first page and is taller than one page's content height produces exactly
    one before-element break preceding it; the function is total (the skip
    loop is exhibited with an iteration bound proven sufficient by
    `skipGo_exits`), so the computation terminates with this single break. -/
theorem oversizedNoTextUnit_single_break (b : Block) (sh : Int)
    (cfg : PaginateOptions) (hw : 0 < b.width) (ht : b.texts = [])
    (hph : 0 < cfg.pageHeightPx) (htm : 0 ≤ cfg.topMarginPx)
    (htop0 : cfg.topMarginPx ≤ b.top)
    (htop1 : b.top < cfg.topMarginPx + cfg.pageHeightPx)
    (hh : cfg.pageHeightPx < b.bottom - b.top) :
    (computePageBreaks ⟨sh, [b]⟩ cfg).breaks =
      [.beforeElement 0 (cfg.topMarginPx + cfg.pageHeightPx)] := by
  have hvis : isVisibleElement b = true := by
    unfold isVisibleElement
    simp only [Bool.and_eq_true, decide_eq_true_eq]
    omega
  have hbot : ¬ b.bottom ≤ cfg.topMarginPx + cfg.pageHeightPx := by omega
  rw [computePageBreaks_breaks]
  have hfilter : (Root.mk sh [b]).blocks.filter isVisibleElement = [b] := by
    simp [List.filter_cons, hvis]
  rw [hfilter,
    paginateAux_cons_noSplit _ _ b [] 0 _ hbot
      (findSplit_of_no_texts b _ _ ht),
    skipPastBoundary_of_not_le b.top _ 0 _ (by omega)]
  simp [paginateAux]

/-- witness for C4 at a concrete 2000px-tall empty paragraph -/
theorem oversizedNoTextUnit_single_break_witness :
    (0 < (para 0 2000).width ∧ (para 0 2000).texts = [] ∧
        0 < scenarioACfg.pageHeightPx ∧ 0 ≤ scenarioACfg.topMarginPx ∧
        scenarioACfg.topMarginPx ≤ (para 0 2000).top ∧
        (para 0 2000).top < scenarioACfg.topMarginPx + scenarioACfg.pageHeightPx ∧
        scenarioACfg.pageHeightPx < (para 0 2000).bottom - (para 0 2000).top) ∧
      (computePageBreaks ⟨2000, [para 0 2000]⟩ scenarioACfg).breaks =
        [.beforeElement 0 (scenarioACfg.topMarginPx + scenarioACfg.pageHeightPx)] :=
  ⟨⟨by decide, rfl, by decide, by decide, by decide, by decide, by decide⟩,
    oversizedNoTextUnit_single_break (para 0 2000) 2000 scenarioACfg (by decide)
      rfl (by decide) (by decide) (by decide) (by decide) (by decide)⟩

/-- C5: error handling of the intra-block splitter on the fallback path:
    (1) when the first overflowing run yields binary-search offset 0 and an
    earlier run exists, the split is placed at the end of that earlier run;
    (2) a block with no measurable text yields no split point regardless of
    the probe; and (3) the engine then emits a whole-block before-element
    break and continues, rather than failing (the embedding is total, so no
    exception is possible). -/
theorem findSplit_fallback_behaviour :
    (∀ (b : Block) (Y : Int) (ms : Nat) (pre : List TextRun)
        (prevRun splitRun : TextRun) (rest : List TextRun),
      b.probe Y = none →
      b.texts = (pre ++ [prevRun]) ++ splitRun :: rest →
      (∀ j (h : j < (pre ++ [prevRun]).length),
        measureBlockToTextOffsetBottomY b j
          ((pre ++ [prevRun]).get ⟨j, h⟩).data.length ≤ Y) →
      Y < measureBlockToTextOffsetBottomY b (pre ++ [prevRun]).length
        splitRun.data.length →
      binarySearchSplitOffset
        (measureBlockToTextOffsetBottomY b (pre ++ [prevRun]).length)
        splitRun.data Y ms = 0 →
      findSplitPointWithinBlock b Y ms = some (pre.length, prevRun.data.length))
    ∧ (∀ (b : Block) (Y : Int) (ms : Nat), b.texts = [] →
        findSplitPointWithinBlock b Y ms = none)
    ∧ (∀ (b : Block) (rest : List Block) (s : Int) (ms i : Nat) (cpb : Int),
        b.texts = [] → ¬ b.bottom ≤ cpb → b.top < cpb →
        paginateAux s ms (b :: rest) i cpb =
          .beforeElement i cpb :: paginateAux s ms rest (i + 1) (cpb + s)) := by
  refine ⟨?_, fun b Y ms ht => findSplit_of_no_texts b Y ms ht, ?_⟩
  · intro b Y ms pre prevRun splitRun rest hprobe htexts hfits hover hzero
    rw [findSplit_probe_none b Y ms hprobe, htexts]
    have hscan := fallbackScan_stops b Y ms (pre ++ [prevRun]) 0 none splitRun
      rest (fun j h => by simpa using hfits j h) (by simpa using hover)
      (by simpa using hzero)
    rw [hscan, List.getLast?_concat]
    simp

  · intro b rest s ms i cpb ht hbot htop
    rw [paginateAux_cons_noSplit s ms b rest i cpb hbot
        (findSplit_of_no_texts b _ ms ht),
      skipPastBoundary_of_not_le b.top s i cpb (by omega)]
    simp

/-- witness for C5 at a two-run block whose second run overflows from its
    first character on, at a text-free block, and at a text-free oversized
    block inside the engine loop -/
theorem findSplit_fallback_behaviour_witness :
    (c5Block.probe 10 = none ∧ c5Block.texts = [c5Run0, c5Run1]) ∧
      findSplitPointWithinBlock c5Block 10 18 = some (0, 2) ∧
      findSplitPointWithinBlock (para 0 100) 50 18 = none ∧
      paginateAux 864 18 [para 0 2000] 0 864 = [.beforeElement 0 864] := by
  refine ⟨⟨rfl, rfl⟩, ?_, ?_, ?_⟩
  · exact findSplit_fallback_behaviour.1 c5Block 10 18 [] c5Run0 c5Run1 []
      rfl rfl (by decide) (by decide) (by decide)
  · exact findSplit_fallback_behaviour.2.1 (para 0 100) 50 18 rfl
  · rw [findSplit_fallback_behaviour.2.2 (para 0 2000) [] 864 18 0 864 rfl
      (by decide) (by decide)]
    rfl

/-- C6: applying the same new-break-set instruction twice consecutively on an
    unchanged document yields exactly the spacer set of applying it once (the
    rebuild depends only on the meta and the document size); moreover every
    rebuilt spacer position lies in `[0, documentLength]` and the clamped
    deduplicated position list has no two adjacent equal entries. -/
theorem paginationApply_setBreaks_idempotent (m : PaginationMeta) (size : Nat)
    (map1 map2 : Int → Option Int) (prev : List Decoration) :
    paginationApply ⟨map2, some m, size⟩
        (paginationApply ⟨map1, some m, size⟩ prev) =
      paginationApply ⟨map1, some m, size⟩ prev ∧
      (∀ d ∈ buildDecorations m size, 0 ≤ d.pos ∧ d.pos ≤ (size : Int)) ∧
      (dedupAdjacent (clampPositions m.breakPositions size)).Chain'
        (fun a b => a ≠ b) := by
  refine ⟨rfl, ?_, dedupAdjacent_chain _⟩
  intro d hd
  simp only [buildDecorations, List.mem_append] at hd
  rcases hd with (h | h) | h
  · by_cases htop : 0 < m.topSpacerPx
    · rw [if_pos htop, List.mem_singleton] at h
      subst h
      exact ⟨le_refl 0, Int.natCast_nonneg size⟩
    · rw [if_neg htop] at h
      simp at h
  · by_cases hbotp : 0 < m.bottomSpacerPx
    · rw [if_pos hbotp, List.mem_singleton] at h
      subst h
      exact ⟨Int.natCast_nonneg size, le_refl _⟩
    · rw [if_neg hbotp] at h
      simp at h
  · rw [List.mem_filterMap] at h
    obtain ⟨pos, hpos, hf⟩ := h
    by_cases hbp : m.betweenSpacerPx ≤ 0
    · rw [if_pos hbp] at hf
      exact absurd hf (by simp)
    · rw [if_neg hbp, Option.some_inj] at hf
      subst hf
      have hmem := dedupAdjacent_subset _ _ hpos
      rw [clampPositions, List.mem_map] at hmem
      obtain ⟨p, hp, hclamp⟩ := hmem
      subst hclamp
      exact ⟨le_max_left 0 _,
        max_le (Int.natCast_nonneg size) (min_le_right p _)⟩

/-- C7: a transaction without a new-break-set instruction remaps every
    spacer's position through the transaction's mapping: heights, classes,
    sides and relative order are preserved, positions become the mapped
    positions (spacers whose position is deleted are dropped), and a no-op
    mapping leaves the spacer set unchanged. -/
theorem paginationApply_remap (m : Int → Option Int) (size : Nat)
    (prev : List Decoration) :
    (paginationApply ⟨m, none, size⟩ prev).map
        (fun d => (d.heightPx, d.cssClass, d.side)) =
      (prev.filter fun d => (m d.pos).isSome).map
        (fun d => (d.heightPx, d.cssClass, d.side)) ∧
      (paginationApply ⟨m, none, size⟩ prev).map (fun d => d.pos) =
        prev.filterMap (fun d => m d.pos) ∧
      paginationApply ⟨fun p => some p, none, size⟩ prev = prev :=
  ⟨mapDecorationSet_attrs m prev, mapDecorationSet_pos m prev,
    mapDecorationSet_id prev⟩

/-- C8: under the virtual-time event-loop model of the debounce scheduler, a
    burst of change events in which every event arrives before the pending
    timer would fire (in particular 5 events within 10ms under a 50ms
    window) cancels and restarts the timer each time and produces exactly
    one firing - hence one execution of `computePageBreaks` - one full
    debounce window after the last event of the burst. -/
theorem scheduler_debounce_coalesces (d t : Int) (ts : List Int) (hd : 0 < d)
    (hchain : List.Chain (fun a b => a ≤ b ∧ b < a + d) t ts) :
    debounceFires d (t :: ts) = [(t :: ts).getLastD 0 + d] ∧
      (t :: ts).getLastD 0 < (t :: ts).getLastD 0 + d :=
  ⟨debounceGo_burst d ts t hchain, by omega⟩

/-- witness for C8: 5 change events within 10ms under a 50ms window fire
    exactly once, 50ms after the last event -/
theorem scheduler_debounce_coalesces_witness :
    ((0:Int) < 50 ∧
        List.Chain (fun a b => a ≤ b ∧ b < a + 50) 0 [2, 4, 7, 10]) ∧
      debounceFires 50 [0, 2, 4, 7, 10] = [60] := by
  have h := (scheduler_debounce_coalesces 50 0 [2, 4, 7, 10] (by norm_num)
    (by norm_num [List.chain_cons])).1
  have h2 : (([0, 2, 4, 7, 10] : List Int).getLastD 0) + 50 = 60 := by decide
  rw [h2] at h
  exact ⟨⟨by norm_num, by norm_num [List.chain_cons]⟩, h⟩

/-- C9: for every call (under the config invariant: positive page height,
    non-negative margins and gap), the `pageStartY` of the i-th break equals
    exactly `topMarginPx + pageHeightPx + i * pageStridePx`: the emitted page
    boundaries form an exact arithmetic progression starting at the first
    page's content bottom. -/
theorem computePageBreaks_progression (root : Root) (cfg : PaginateOptions)
    (h1 : 0 < cfg.pageHeightPx) (h2 : 0 ≤ cfg.topMarginPx)
    (h3 : 0 ≤ cfg.bottomMarginPx) (h4 : 0 ≤ cfg.pageGapPx)
    (i : Nat) (hi : i < (computePageBreaks root cfg).breaks.length) :
    pageStartYOf ((computePageBreaks root cfg).breaks.get ⟨i, hi⟩) =
      cfg.topMarginPx + cfg.pageHeightPx +
        (i : Int) * (computePageBreaks root cfg).pageStridePx := by
  have hlen : i < (paginateAux
      (cfg.pageHeightPx + cfg.topMarginPx + cfg.bottomMarginPx + cfg.pageGapPx)
      cfg.maxBinarySearchSteps (root.blocks.filter isVisibleElement) 0
      (cfg.topMarginPx + cfg.pageHeightPx)).length := by
    rw [← computePageBreaks_breaks]
    exact hi
  have h6 : ((computePageBreaks root cfg).breaks.map pageStartYOf).get? i =
      some (pageStartYOf ((computePageBreaks root cfg).breaks.get ⟨i, hi⟩)) := by
    rw [List.get?_map, List.get?_eq_get hi]
    rfl
  have h7 : ((computePageBreaks root cfg).breaks.map pageStartYOf).get? i =
      some (cfg.topMarginPx + cfg.pageHeightPx + (i : Int) *
        (cfg.pageHeightPx + cfg.topMarginPx + cfg.bottomMarginPx +
          cfg.pageGapPx)) := by
    rw [computePageBreaks_breaks, paginateAux_map_pageStartY, prog_get?,
      if_pos hlen]
  rw [computePageBreaks_stride]
  exact Option.some_inj.mp (h6.symm.trans h7)

/-- witness for C9 at the Scenario A root, break index 0 -/
theorem computePageBreaks_progression_witness :
    ((0:Int) < 864 ∧
        0 < (computePageBreaks scenarioARoot scenarioACfg).breaks.length) ∧
      pageStartYOf ((computePageBreaks scenarioARoot scenarioACfg).breaks.get
        ⟨0, by decide⟩) = 864 := by
  have h := computePageBreaks_progression scenarioARoot scenarioACfg (by decide)
    (by decide) (by decide) (by decide) 0 (by decide)
  have h2 : scenarioACfg.topMarginPx + scenarioACfg.pageHeightPx +
      ((0 : Nat) : Int) *
        (computePageBreaks scenarioARoot scenarioACfg).pageStridePx = 864 := by
    decide
  exact ⟨⟨by norm_num, by decide⟩, h.trans h2⟩

/-- C10: `clearPaginationBreaks` dispatches exactly the meta of
    `setPaginationBreaks([], 0, 0, 0)`; applying either to any previous state
    through any transaction yields the same result, namely the empty spacer
    set. -/
theorem clearBreaks_equiv_setBreaks_empty :
    clearPaginationBreaksMeta = setPaginationBreaksMeta [] 0 0 0 ∧
      (∀ (m1 m2 : Int → Option Int) (size : Nat)
          (prev1 prev2 : List Decoration),
        paginationApply ⟨m1, some clearPaginationBreaksMeta, size⟩ prev1 =
          paginationApply ⟨m2, some (setPaginationBreaksMeta [] 0 0 0), size⟩
            prev2) ∧
      (∀ (m : Int → Option Int) (size : Nat) (prev : List Decoration),
        paginationApply ⟨m, some clearPaginationBreaksMeta, size⟩ prev = []) :=
  ⟨rfl, fun _ _ _ _ _ => rfl, fun _ _ _ => rfl⟩

end PaginationSpec
